import Mathlib

set_option allowUnsafeReducibility true
attribute [semireducible] Rat.add Rat.mul Rat.inv Rat.sub Rat.ofScientific

/-!
Verification of the linear-algebra kernel of this repository
(`src/linalg/decompositions.rs` together with the capability traits of
`src/traits/structure.rs`): Householder reflector construction, QR
factorization by Householder reflections, and the QR eigenvalue iteration.

The embedding models the generic scalar type `N : Float` as `ℚ` together
with an explicit square-root function `sqrt : ℚ → ℚ` (square roots are the
only `Float` operation used beyond ordered-field arithmetic, through
`Norm::norm`).  Vectors (`V : Indexable<uint, N> + Norm<N>`) are `List ℚ`;
matrices are shape-carrying entry functions.  Unchecked reads
(`Indexable::unsafe_at`) on vectors are modelled with `List.get?`, so an
out-of-bounds unchecked read becomes an observable `ExecError.indexOutOfBounds`
instead of undefined behavior, and `assert!` failures become
`ExecError.assertionFailed`.
-/

/-- Outcome of a fallible execution step: a failed `assert!`, or an
out-of-bounds unchecked (`unsafe`) access, which is undefined behavior in
the source and is made observable in this total embedding. -/
inductive ExecError where
  | assertionFailed
  | indexOutOfBounds
deriving DecidableEq, Repr

/-- A matrix: a `(rows, cols)` shape plus an entry function.  This is a
model of the capability bundle `Eye + Indexable<(uint, uint), N> +
ColSlice<V> + Transpose + Mul + Diag` demanded by the algorithms. -/
structure Mat where
  rows : Nat
  cols : Nat
  entry : Nat → Nat → ℚ

/-- `Indexable::unsafe_set` on matrices (all matrix writes performed by the
algorithms are in bounds, so the write is modelled totally). -/
def Mat.uset (m : Mat) (i j : Nat) (x : ℚ) : Mat :=
  ⟨m.rows, m.cols, fun a b => if a = i ∧ b = j then x else m.entry a b⟩

/-- `Eye::new_identity(dim)`. -/
def eye (dim : Nat) : Mat :=
  ⟨dim, dim, fun i j => if i = j then 1 else 0⟩

/-- `Transpose::transpose_cpy`. -/
def Mat.transpose_cpy (m : Mat) : Mat :=
  ⟨m.cols, m.rows, fun i j => m.entry j i⟩

/-- `Mul<M, M>` for matrices (inner dimension is the left factor's column
count, as in any concrete implementation of the trait). -/
def Mat.mul (a b : Mat) : Mat :=
  ⟨a.rows, b.cols, fun i j =>
    (List.range a.cols).foldl (fun s k => s + a.entry i k * b.entry k j) 0⟩

/-- `ColSlice::col_slice(col_id, row_start, row_end)`: the sub-column of
column `col_id` from row `row_start` (inclusive) to `row_end` (exclusive). -/
def Mat.col_slice (m : Mat) (colId rowStart rowEnd : Nat) : List ℚ :=
  (List.range' rowStart (rowEnd - rowStart)).map (fun i => m.entry i colId)

/-- `Diag::diag`: the diagonal of a (square) matrix as a vector. -/
def Mat.diag (m : Mat) : List ℚ :=
  (List.range m.rows).map (fun i => m.entry i i)

/-- `Norm::sqnorm`: the sum of the squares of the components. -/
def sqnorm (v : List ℚ) : ℚ :=
  v.foldl (fun s x => s + x * x) 0

/-- `Norm::norm`, parametric in the scalar type's square-root function. -/
def norm (sqrt : ℚ → ℚ) (v : List ℚ) : ℚ :=
  sqrt (sqnorm v)

/-- Floor square root of a natural number by linear scan (a concrete,
kernel-reducible stand-in used to instantiate the scalar type's square
root on concrete runs; exact on perfect squares). -/
def natSqrtLin (n : Nat) : Nat :=
  (List.range (n + 1)).foldl (fun acc k => if k * k ≤ n then k else acc) 0

/-- A concrete square-root instantiation for `ℚ`: exact on ratios of
perfect squares, which covers every concrete execution trace used below. -/
def ratSqrt (q : ℚ) : ℚ :=
  (natSqrtLin q.num.toNat : ℚ) / (natSqrtLin q.den : ℚ)

/-- Body of the inner `for i in range(start, stop)` loop of
`householder_matrix`: subtract `vv + vv` from `qk[(i, j)]` where
`vv = vec[i - start] * vec[j - start]`. -/
def hhStep (vec : List ℚ) (start j : Nat) (m : Mat) (i : Nat) : Mat :=
  let vv := vec.getD (i - start) 0 * vec.getD (j - start) 0
  m.uset i j (m.entry i j - vv - vv)

/-- One iteration of the outer `for j in range(start, stop)` loop of
`householder_matrix`. -/
def hhCol (vec : List ℚ) (start : Nat) (m : Mat) (j : Nat) : Mat :=
  (List.range' start vec.length).foldl (hhStep vec start j) m

/-- `householder_matrix(dim, start, vec)`: start from the identity, assert
`dim >= stop` where `stop = subdim + start`, then subtract the doubled
outer-product terms over the index square `[start, stop) × [start, stop)`. -/
def householder_matrix (dim start : Nat) (vec : List ℚ) : Except ExecError Mat :=
  if vec.length + start ≤ dim then
    .ok ((List.range' start vec.length).foldl (hhCol vec start) (eye dim))
  else .error .assertionFailed

/-- A `for` loop over a list whose body may abort (failing assertion or
out-of-bounds unchecked access), threading the loop state. -/
def exceptFold {α β : Type} (f : β → α → Except ExecError β) :
    List α → β → Except ExecError β
  | [], b => .ok b
  | a :: l, b =>
    match f b a with
    | .error e => .error e
    | .ok b2 => exceptFold f l b2

/-- One iteration `ite` of the `qr` loop, acting on the state `(q, r)`:
extract `v = r.col_slice(ite, ite, rows)`, choose `alpha` by the sign of
the unchecked read `v.unsafe_at(ite)` (faithful to the source, which reads
index `ite`, not index `0`), replace `v[0] <- v[0] - alpha`, normalize,
and when the pre-normalization magnitude is nonzero apply the Householder
reflector built from the normalized vector. -/
def qrStep (sqrt : ℚ → ℚ) (rows : Nat) (st : Mat × Mat) (ite : Nat) :
    Except ExecError (Mat × Mat) :=
  let v := st.2.col_slice ite ite rows
  match v.get? ite, v.get? 0 with
  | some vite, some x =>
    let alpha := if 0 ≤ vite then -(norm sqrt v) else norm sqrt v
    let v2 := v.set 0 (x - alpha)
    let n := norm sqrt v2
    let v3 := v2.map (fun y => y / n)
    if n = 0 then .ok st
    else
      match householder_matrix rows ite v3 with
      | .error e => .error e
      | .ok qk => .ok (st.1.mul qk.transpose_cpy, qk.mul st.2)
  | _, _ => .error .indexOutOfBounds

/-- `qr(m)`: assert `rows >= cols`, then run `min(rows - 1, cols)`
Householder iterations starting from `(identity, m)`. -/
def qr (sqrt : ℚ → ℚ) (m : Mat) : Except ExecError (Mat × Mat) :=
  if m.cols ≤ m.rows then
    exceptFold (qrStep sqrt m.rows) (List.range (min (m.rows - 1) m.cols)) (eye m.rows, m)
  else .error .assertionFailed

/-- The convergence scan of `eigen_qr`: starting from `stop = true`, for
each column `j` scan the strictly-above-diagonal entries `i < j` and the
strictly-below-diagonal entries `j < i < rows`, clearing `stop` whenever
an entry of magnitude `>= eps` is found (the source `break`s out of each
inner scan at the first offending entry, which does not change the
resulting flag). -/
def stopCheck (eps : ℚ) (rows cols : Nat) (m : Mat) : Bool :=
  (List.range cols).foldl
    (fun stop j =>
      let stop1 := if (List.range j).any (fun i => decide (eps ≤ |m.entry i j|)) then false else stop
      if (List.range' (j + 1) (rows - (j + 1))).any (fun i => decide (eps ≤ |m.entry i j|)) then false
      else stop1)
    true

/-- The in-place write of the shift value onto the diagonal of the shifter
accumulator matrix. -/
def setDiagConst (s : Mat) (rows : Nat) (x : ℚ) : Mat :=
  (List.range rows).foldl (fun s2 i => s2.uset i i x) s

/-- The fuelled iteration of `eigen_qr` on the state
`(eigenvectors, eigenvalues, shifter)`: check convergence, and if not
converged compute the shift, write it into the shifter matrix, factorize
`eigenvalues` (unmodified) through `qr`, and recombine. -/
def eigenLoop (sqrt : ℚ → ℚ) (eps : ℚ) (rows cols : Nat) :
    Nat → Mat × Mat × Mat → Except ExecError (Mat × Mat × Mat)
  | 0, st => .ok st
  | nfuel + 1, st =>
    if stopCheck eps rows cols st.2.1 then .ok st
    else
      match qr sqrt st.2.1 with
      | .error e => .error e
      | .ok (q, r) =>
        eigenLoop sqrt eps rows cols nfuel
          (st.1.mul q, r.mul q,
           setDiagConst st.2.2 rows (st.2.1.entry (rows - 1) (rows - 1)))

/-- `eigen_qr(m, eps, niter)`: assert squareness, run at most `niter`
iterations from `(identity, m, identity)`, and return the accumulated
eigenvector matrix together with the diagonal of the final eigenvalue
matrix. -/
def eigen_qr (sqrt : ℚ → ℚ) (m : Mat) (eps : ℚ) (niter : Nat) :
    Except ExecError (Mat × List ℚ) :=
  if m.rows = m.cols then
    match eigenLoop sqrt eps m.rows m.cols niter (eye m.rows, m, eye m.rows) with
    | .error e => .error e
    | .ok t => .ok (t.1, t.2.1.diag)
  else .error .assertionFailed

/-- Modelled from the spec: the iteration of section 4.2 chooses the sign of
`alpha` by the sign of the FIRST component `v[0]` of the extracted
sub-column (the source reads component `ite` instead).  Everything else is
as in `qrStep`.  This definition exists only to compare the source's sign
choice against the specified one. -/
def qrStepSpecSign (sqrt : ℚ → ℚ) (rows : Nat) (st : Mat × Mat) (ite : Nat) :
    Except ExecError (Mat × Mat) :=
  let v := st.2.col_slice ite ite rows
  match v.get? 0 with
  | some x =>
    let alpha := if 0 ≤ x then -(norm sqrt v) else norm sqrt v
    let v2 := v.set 0 (x - alpha)
    let n := norm sqrt v2
    let v3 := v2.map (fun y => y / n)
    if n = 0 then .ok st
    else
      match householder_matrix rows ite v3 with
      | .error e => .error e
      | .ok qk => .ok (st.1.mul qk.transpose_cpy, qk.mul st.2)
  | _ => .error .indexOutOfBounds

/-- Modelled from the spec: QR factorization whose per-iteration sign choice
reads `v[0]`, as section 4.2 states. -/
def qrSpecSign (sqrt : ℚ → ℚ) (m : Mat) : Except ExecError (Mat × Mat) :=
  if m.cols ≤ m.rows then
    exceptFold (qrStepSpecSign sqrt m.rows) (List.range (min (m.rows - 1) m.cols)) (eye m.rows, m)
  else .error .assertionFailed

/-- Modelled from the spec: the plain unshifted QR iteration of section 4.3
with the shift computation and the shifter matrix removed, used to state
that the source's shift machinery is dead code. -/
def eigenLoopNoShift (sqrt : ℚ → ℚ) (eps : ℚ) (rows cols : Nat) :
    Nat → Mat × Mat → Except ExecError (Mat × Mat)
  | 0, st => .ok st
  | nfuel + 1, st =>
    if stopCheck eps rows cols st.2 then .ok st
    else
      match qr sqrt st.2 with
      | .error e => .error e
      | .ok (q, r) => eigenLoopNoShift sqrt eps rows cols nfuel (st.1.mul q, r.mul q)

/-- Modelled from the spec: the eigensolver run as a plain unshifted QR
iteration (no shift value, no shifter accumulator). -/
def eigen_qr_unshifted (sqrt : ℚ → ℚ) (m : Mat) (eps : ℚ) (niter : Nat) :
    Except ExecError (Mat × List ℚ) :=
  if m.rows = m.cols then
    match eigenLoopNoShift sqrt eps m.rows m.cols niter (eye m.rows, m) with
    | .error e => .error e
    | .ok t => .ok (t.1, t.2.diag)
  else .error .assertionFailed

/-- Projection of an execution result onto its error, if any. -/
def errOf {b : Type} : Except ExecError b → Option ExecError
  | .error e => some e
  | .ok _ => none

/-- Projection of an execution result onto its value, if any. -/
def okVal {b : Type} : Except ExecError b → Option b
  | .error _ => none
  | .ok x => some x

/-- A 3 × 2 input for `qr` whose first column is zero (so iteration 0 skips)
and whose column-1 sub-column at iteration 1 is `[7/5, -24/5]`: its first
component is nonnegative while the component the source actually reads for
the sign choice, `v[1]`, is negative, and all norms met along both the
source's branch and the specified branch are exact rationals. -/
def MC1 : Mat :=
  ⟨3, 2, fun i j => if j = 1 then (if i = 1 then 7/5 else if i = 2 then -24/5 else 0) else 0⟩

/-- A 4 × 4 input for `eigen_qr` with a single off-diagonal entry `1` at
`(0, 1)` (so the convergence check fails for `eps = 1` and the iteration
body runs) and zero columns elsewhere, driving the inner `qr` call into
its out-of-bounds unchecked read at iteration 2. -/
def MC9 : Mat := ⟨4, 4, fun i j => if i = 0 ∧ j = 1 then 1 else 0⟩

/-- C1. The claim says the reflection scalar `alpha` is chosen by the sign
of the first component `v[0]` of the extracted sub-column.  The source
instead reads `v.unsafe_at(ite)`.  On `MC1` (shape 3 × 2, satisfying the
`rows >= cols` precondition) iteration 0 skips, and at iteration 1 the
sub-column is `[7/5, -24/5]`: its component 0 is nonnegative, so the claim
mandates `alpha = -norm(v)` and final `R[1][1] = -5` (the behaviour of the
spec-modelled `qrSpecSign`), but the source tests component 1, which is
negative, takes `alpha = +norm(v)` and produces `R[1][1] = 5`. -/
theorem qr_sign_divergence :
    (MC1.col_slice 1 1 3).get? 0 = some (7/5)
    ∧ (0:ℚ) ≤ 7/5
    ∧ (MC1.col_slice 1 1 3).get? 1 = some (-24/5)
    ∧ (okVal (qr ratSqrt MC1)).map (fun p => p.2.entry 1 1) = some 5
    ∧ (okVal (qrSpecSign ratSqrt MC1)).map (fun p => p.2.entry 1 1) = some (-5) := by
  refine ⟨by decide, by decide, by decide, by decide, by decide⟩

/-- C2. On the 4 × 4 identity, which satisfies the `rows >= cols`
precondition of `qr`, the execution reaches the unchecked read
`v.unsafe_at(ite)` at iteration `ite = 2` on a slice of length
`rows - ite = 2`, i.e. the out-of-bounds branch of the total embedding is
reachable (here `2 * ite >= rows`). -/
theorem qr_oob_reachable :
    (eye 4).cols ≤ (eye 4).rows
    ∧ errOf (qr ratSqrt (eye 4)) = some ExecError.indexOutOfBounds := by
  refine ⟨by decide, by decide⟩

/-- C3. The claim promises that for every matrix with `rows >= cols` the
function `qr` returns a factorization `(Q, R)`; on the 4 × 4 identity
(which satisfies the precondition) the source instead performs an
out-of-bounds unchecked read and returns no factorization at all. -/
theorem qr_no_factorization_eye4 :
    (eye 4).cols ≤ (eye 4).rows ∧ ¬∃ p, qr ratSqrt (eye 4) = Except.ok p := by
  refine ⟨by decide, ?_⟩
  rintro ⟨p, h⟩
  have h2 : errOf (qr ratSqrt (eye 4)) = some ExecError.indexOutOfBounds := by decide
  rw [h] at h2
  simp [errOf] at h2

/-- C8. The claim says the `qr` loop executes exactly `min(rows - 1, cols)`
iterations.  On the 4 × 4 identity that bound is 3 and the first two
iterations complete, but the loop aborts inside iteration index 2 with an
out-of-bounds unchecked read, so the three iterations never complete. -/
theorem qr_iteration_count_abort :
    min ((eye 4).rows - 1) (eye 4).cols = 3
    ∧ (∃ p, exceptFold (qrStep ratSqrt 4) (List.range 2) (eye 4, eye 4) = Except.ok p)
    ∧ errOf (exceptFold (qrStep ratSqrt 4) (List.range 3) (eye 4, eye 4))
        = some ExecError.indexOutOfBounds
    ∧ qr ratSqrt (eye 4) = exceptFold (qrStep ratSqrt 4) (List.range 3) (eye 4, eye 4) := by
  refine ⟨by decide, ⟨_, rfl⟩, by decide, rfl⟩

/-- C9. The claim says `eigen_qr` always returns normally after at most
`niter` iterations for every square matrix.  On the square matrix `MC9`
with `eps = 1` the convergence check fails, the single iteration runs, and
the inner `qr` call performs an out-of-bounds unchecked read instead of
returning: the run with `niter = 1` aborts.  With `niter = 0` the function
does return the identity eigenvector matrix and the diagonal of `MC9`
without any convergence check, as the claim states for that case. -/
theorem eigen_qr_oob_error :
    MC9.rows = MC9.cols
    ∧ errOf (eigen_qr ratSqrt MC9 1 1) = some ExecError.indexOutOfBounds
    ∧ eigen_qr ratSqrt MC9 1 0 = Except.ok (eye 4, MC9.diag) := by
  refine ⟨rfl, by decide, rfl⟩

/-- On a 1 × 1 matrix the convergence scan of `eigen_qr` visits no entry at
all and the stop flag stays `true`. -/
theorem stopCheck_one (eps : ℚ) (m : Mat) : stopCheck eps 1 1 m = true := rfl

/-- A concrete 1 × 1 matrix with entry 5. -/
def MC10 : Mat := ⟨1, 1, fun _ _ => 5⟩

/-- C10. A 1 × 1 matrix passes through both algorithms as a degenerate
no-op: `qr` runs `min(rows - 1, cols) = 0` iterations and returns the
1-dimensional identity with `R = M`, and `eigen_qr` with a positive
iteration budget stops immediately as converged (no off-diagonal entries),
returning the 1-dimensional identity and the single entry of `M`. -/
theorem dim_one_degenerate (sqrt : ℚ → ℚ) (m : Mat) (eps : ℚ) (niter : Nat)
    (h1 : m.rows = 1) (h2 : m.cols = 1) (h3 : 1 ≤ niter) :
    qr sqrt m = Except.ok (eye 1, m)
    ∧ eigen_qr sqrt m eps niter = Except.ok (eye 1, [m.entry 0 0]) := by
  obtain ⟨nf, rfl⟩ : ∃ nf, niter = nf + 1 := ⟨niter - 1, by omega⟩
  constructor
  · simp [qr, h1, h2, exceptFold]
  · simp only [eigen_qr, h1, h2, eigenLoop, stopCheck_one, if_true, Mat.diag]
    rfl

/-- Witness for C10 at the concrete matrix `MC10` and budget 1. -/
theorem dim_one_degenerate_witness :
    qr ratSqrt MC10 = Except.ok (eye 1, MC10)
    ∧ eigen_qr ratSqrt MC10 1 1 = Except.ok (eye 1, [MC10.entry 0 0]) :=
  dim_one_degenerate ratSqrt MC10 1 1 rfl rfl (by decide)

/-- Dropping the shifter component commutes with one unfolding of the
eigensolver loop: the shifter accumulator is written but never read, so
projecting it away yields exactly the spec-modelled unshifted loop. -/
theorem eigenLoop_proj (sqrt : ℚ → ℚ) (eps : ℚ) (rows cols : Nat) :
    ∀ (nf : Nat) (vecs vals sh : Mat),
      Except.map (fun t => (t.1, t.2.1)) (eigenLoop sqrt eps rows cols nf (vecs, vals, sh))
        = eigenLoopNoShift sqrt eps rows cols nf (vecs, vals) := by
  intro nf
  induction nf with
  | zero => intro vecs vals sh; rfl
  | succ n ih =>
    intro vecs vals sh
    simp only [eigenLoop, eigenLoopNoShift]
    by_cases hs : stopCheck eps rows cols vals = true
    · simp [hs, Except.map]
    · simp only [hs, if_false, Bool.false_eq_true]
      cases hq : qr sqrt vals with
      | error e => simp [Except.map]
      | ok p =>
        obtain ⟨q, r⟩ := p
        simpa using ih (vecs.mul q) (r.mul q) (setDiagConst sh rows (vals.entry (rows - 1) (rows - 1)))

/-- C4. The shift machinery of `eigen_qr` is dead code: the shift value is
computed and written into the shifter matrix each iteration, but the
matrix handed to `qr` is the unmodified `eigenvalues`, so for every input,
tolerance and budget the result coincides with the plain unshifted QR
iteration (shift computation and shifter matrix removed). -/
theorem eigen_qr_shift_dead_code (sqrt : ℚ → ℚ) (m : Mat) (eps : ℚ) (niter : Nat) :
    eigen_qr sqrt m eps niter = eigen_qr_unshifted sqrt m eps niter := by
  unfold eigen_qr eigen_qr_unshifted
  by_cases hsq : m.rows = m.cols
  · rw [if_pos hsq, if_pos hsq]
    have h := eigenLoop_proj sqrt eps m.rows m.cols niter (eye m.rows) m (eye m.rows)
    cases hE : eigenLoop sqrt eps m.rows m.cols niter (eye m.rows, m, eye m.rows) with
    | error e =>
      rw [hE] at h
      simp only [Except.map] at h
      rw [← h]
    | ok t =>
      rw [hE] at h
      simp only [Except.map] at h
      rw [← h]
  · rw [if_neg hsq, if_neg hsq]

/-- The threaded stop flag of the convergence scan equals the conjunction,
over the scanned columns, of the absence of an offending entry in either
inner scan. -/
theorem stopCheck_foldl_eq (eps : ℚ) (rows : Nat) (m : Mat) :
    ∀ (l : List Nat) (b : Bool),
      l.foldl
        (fun stop j =>
          let stop1 :=
            if (List.range j).any (fun i => decide (eps ≤ |m.entry i j|)) then false else stop
          if (List.range' (j + 1) (rows - (j + 1))).any (fun i => decide (eps ≤ |m.entry i j|))
          then false else stop1)
        b
      = (b && l.all (fun j =>
          !((List.range j).any (fun i => decide (eps ≤ |m.entry i j|))
            || (List.range' (j + 1) (rows - (j + 1))).any
                (fun i => decide (eps ≤ |m.entry i j|))))) := by
  intro l
  induction l with
  | nil => intro b; simp
  | cons j l ih =>
    intro b
    rw [List.foldl_cons, ih, List.all_cons]
    cases h1 : (List.range j).any (fun i => decide (eps ≤ |m.entry i j|)) <;>
      cases h2 : (List.range' (j + 1) (rows - (j + 1))).any
          (fun i => decide (eps ≤ |m.entry i j|)) <;>
        cases b <;> simp [h1, h2]

/-- The convergence scan of `eigen_qr` on a square shape reports `true`
exactly when every strictly off-diagonal entry has magnitude strictly
below `eps`. -/
theorem stopCheck_iff (eps : ℚ) (rows : Nat) (m : Mat) :
    stopCheck eps rows rows m = true
      ↔ ∀ i, i < rows → ∀ j, j < rows → i ≠ j → |m.entry i j| < eps := by
  unfold stopCheck
  rw [stopCheck_foldl_eq]
  simp only [Bool.true_and, List.all_eq_true, List.mem_range, Bool.not_eq_true',
    Bool.or_eq_false_iff, List.any_eq_false, decide_eq_false_iff_not, decide_eq_true_eq,
    not_le, List.mem_range'_1]
  constructor
  · intro h i hi j hj hne
    rcases lt_trichotomy i j with hij | hij | hij
    · exact (h j hj).1 i hij
    · exact absurd hij hne
    · exact (h j hj).2 i ⟨by omega, by omega⟩
  · intro h j hj
    constructor
    · intro i hij
      exact h i (by omega) j hj (by omega)
    · intro i hi2
      exact h i (by omega) j hj (by omega)

/-- C5. Before each iteration `eigen_qr` stops exactly when every strictly
off-diagonal entry of the current eigenvalue matrix has magnitude
strictly below `eps`; when some off-diagonal entry reaches `eps` the
iteration body (shift write, factorization, recombination) executes. -/
theorem eigen_qr_convergence_check (sqrt : ℚ → ℚ) (eps : ℚ) (rows nfuel : Nat)
    (vecs vals sh : Mat) :
    (stopCheck eps rows rows vals = true
      ↔ ∀ i, i < rows → ∀ j, j < rows → i ≠ j → |vals.entry i j| < eps)
    ∧ eigenLoop sqrt eps rows rows (nfuel + 1) (vecs, vals, sh)
        = (if stopCheck eps rows rows vals then Except.ok (vecs, vals, sh)
           else
             match qr sqrt vals with
             | .error e => .error e
             | .ok (q, r) =>
               eigenLoop sqrt eps rows rows nfuel
                 (vecs.mul q, r.mul q,
                  setDiagConst sh rows (vals.entry (rows - 1) (rows - 1)))) :=
  ⟨stopCheck_iff eps rows vals, rfl⟩

/-- The sub-column slice extracted at iteration `ite` has length
`rows - ite`. -/
theorem col_slice_length (m : Mat) (c rs re : Nat) :
    (m.col_slice c rs re).length = re - rs := by
  simp [Mat.col_slice]

/-- A loop whose every step avoids a given error also avoids it as a
whole. -/
theorem exceptFold_ne_error {α β : Type} (f : β → α → Except ExecError β) (e : ExecError) :
    ∀ (l : List α), (∀ b a, a ∈ l → f b a ≠ .error e) → ∀ b,
      exceptFold f l b ≠ .error e := by
  intro l
  induction l with
  | nil => intro _ b h; exact Except.noConfusion h
  | cons a l ih =>
    intro hf b h
    simp only [exceptFold] at h
    cases hfa : f b a with
    | error e2 =>
      simp only [hfa] at h
      cases h
      exact hf b a (List.mem_cons_self a l) hfa
    | ok b2 =>
      simp only [hfa] at h
      exact ih (fun b3 a2 ha2 => hf b3 a2 (List.mem_cons_of_mem a ha2)) b2 h

/-- An invariant preserved by every successful step of a fallible loop
holds of a successful result. -/
theorem exceptFold_ok_inv {α β : Type} {P : β → Prop} (f : β → α → Except ExecError β)
    (hf : ∀ b a b2, P b → f b a = .ok b2 → P b2) :
    ∀ (l : List α) (b b2 : β), P b → exceptFold f l b = .ok b2 → P b2 := by
  intro l
  induction l with
  | nil =>
    intro b b2 hP h
    simp only [exceptFold] at h
    cases h
    exact hP
  | cons a l ih =>
    intro b b2 hP h
    simp only [exceptFold] at h
    cases hfa : f b a with
    | error e =>
      simp only [hfa] at h
      exact Except.noConfusion h
    | ok bm =>
      simp only [hfa] at h
      exact ih bm b2 (hf b a bm hP hfa) h

/-- A `qr` iteration whose index does not exceed the row count either
aborts with the out-of-bounds error (never the assertion error: the
reflector's assertion `dim >= subdim + start` holds by construction) or
returns a successor state. -/
theorem householder_error (dim start : Nat) (vec : List ℚ) (e : ExecError)
    (h : householder_matrix dim start vec = .error e) :
    e = .assertionFailed ∧ dim < vec.length + start := by
  unfold householder_matrix at h
  by_cases hc : vec.length + start ≤ dim
  · rw [if_pos hc] at h
    exact Except.noConfusion h
  · rw [if_neg hc] at h
    injection h with h
    exact ⟨h.symm, by omega⟩

theorem qrStep_cases (sqrt : ℚ → ℚ) (rows : Nat) (st : Mat × Mat) (ite : Nat)
    (hite : ite ≤ rows) :
    qrStep sqrt rows st ite = .error .indexOutOfBounds
      ∨ ∃ st2, qrStep sqrt rows st ite = .ok st2 := by
  cases hb : qrStep sqrt rows st ite with
  | ok p => exact Or.inr ⟨p, rfl⟩
  | error e =>
    left
    simp only [qrStep] at hb
    cases h1 : (st.2.col_slice ite ite rows).get? ite with
    | none =>
      simp only [h1] at hb
      injection hb with hb
      rw [← hb]
    | some vite =>
      cases h2 : (st.2.col_slice ite ite rows).get? 0 with
      | none =>
        simp only [h1, h2] at hb
        injection hb with hb
        rw [← hb]
      | some x =>
        simp only [h1, h2] at hb
        split at hb
        · split at hb
          · exact Except.noConfusion hb
          · split at hb
            · next e2 heq =>
              have he := householder_error rows ite _ e2 heq
              simp only [List.length_map, List.length_set, col_slice_length] at he
              omega
            · next qk heq => exact Except.noConfusion hb
        · split at hb
          · exact Except.noConfusion hb
          · split at hb
            · next e2 heq =>
              have he := householder_error rows ite _ e2 heq
              simp only [List.length_map, List.length_set, col_slice_length] at he
              omega
            · next qk heq => exact Except.noConfusion hb

/-- Matrix writes do not change the shape, so neither does any fold of
them. -/
theorem foldl_shape {α : Type} (f : Mat → α → Mat)
    (hf : ∀ m a, (f m a).rows = m.rows ∧ (f m a).cols = m.cols) :
    ∀ (l : List α) (m : Mat), (l.foldl f m).rows = m.rows ∧ (l.foldl f m).cols = m.cols := by
  intro l
  induction l with
  | nil => intro m; exact ⟨rfl, rfl⟩
  | cons a l ih =>
    intro m
    rw [List.foldl_cons]
    have h2 := ih (f m a)
    have h3 := hf m a
    exact ⟨h2.1.trans h3.1, h2.2.trans h3.2⟩

/-- A successfully built Householder reflector is a `dim`-square matrix. -/
theorem householder_shape (dim start : Nat) (vec : List ℚ) (H : Mat)
    (h : householder_matrix dim start vec = .ok H) : H.rows = dim ∧ H.cols = dim := by
  unfold householder_matrix at h
  by_cases hc : vec.length + start ≤ dim
  · rw [if_pos hc] at h
    cases h
    exact foldl_shape (hhCol vec start)
      (fun m j => foldl_shape (hhStep vec start j) (fun m2 i => ⟨rfl, rfl⟩) _ m)
      (List.range' start vec.length) (eye dim)
  · rw [if_neg hc] at h
    exact Except.noConfusion h

/-- A successful `qr` iteration preserves the shapes of the accumulated
factors: `q` keeps its row count and a column count equal to `rows`, `r`
keeps `rows` rows and its column count. -/
theorem qrStep_shape (sqrt : ℚ → ℚ) (rows A B : Nat) (st st2 : Mat × Mat) (ite : Nat)
    (hP : st.1.rows = A ∧ st.1.cols = rows ∧ st.2.rows = rows ∧ st.2.cols = B)
    (h : qrStep sqrt rows st ite = .ok st2) :
    st2.1.rows = A ∧ st2.1.cols = rows ∧ st2.2.rows = rows ∧ st2.2.cols = B := by
  simp only [qrStep] at h
  cases h1 : (st.2.col_slice ite ite rows).get? ite with
  | none =>
    simp only [h1] at h
    exact Except.noConfusion h
  | some vite =>
    cases h2 : (st.2.col_slice ite ite rows).get? 0 with
    | none =>
      simp only [h1, h2] at h
      exact Except.noConfusion h
    | some x =>
      simp only [h1, h2] at h
      split at h
      · split at h
        · injection h with h
          rw [← h]
          exact hP
        · split at h
          · exact Except.noConfusion h
          · next qk heq =>
            have hs := householder_shape rows ite _ qk heq
            injection h with h
            rw [← h]
            exact ⟨hP.1, hs.1, hs.1, hP.2.2.2⟩
      · split at h
        · injection h with h
          rw [← h]
          exact hP
        · split at h
          · exact Except.noConfusion h
          · next qk heq =>
            have hs := householder_shape rows ite _ qk heq
            injection h with h
            rw [← h]
            exact ⟨hP.1, hs.1, hs.1, hP.2.2.2⟩

/-- Shapes of a successful factorization: `q` is `rows`-square and `r` has
the input's shape. -/
theorem qr_ok_shape (sqrt : ℚ → ℚ) (m : Mat) (q r : Mat)
    (h : qr sqrt m = .ok (q, r)) :
    q.rows = m.rows ∧ q.cols = m.rows ∧ r.rows = m.rows ∧ r.cols = m.cols := by
  unfold qr at h
  by_cases hc : m.cols ≤ m.rows
  · rw [if_pos hc] at h
    exact exceptFold_ok_inv
      (P := fun p : Mat × Mat =>
        p.1.rows = m.rows ∧ p.1.cols = m.rows ∧ p.2.rows = m.rows ∧ p.2.cols = m.cols)
      (qrStep sqrt m.rows)
      (fun b a b2 hP hstep => qrStep_shape sqrt m.rows m.rows m.cols b b2 a hP hstep)
      (List.range (min (m.rows - 1) m.cols)) (eye m.rows, m) (q, r) ⟨rfl, rfl, rfl, rfl⟩ h
  · rw [if_neg hc] at h
    exact Except.noConfusion h

/-- When the shape precondition `rows >= cols` holds, `qr` never reports
the assertion error (its loop indices keep the reflector's assertion
satisfied). -/
theorem qr_ne_assert (sqrt : ℚ → ℚ) (m : Mat) (hc : m.cols ≤ m.rows) :
    qr sqrt m ≠ .error .assertionFailed := by
  unfold qr
  rw [if_pos hc]
  refine exceptFold_ne_error _ _ _ (fun b a ha => ?_) _
  have halt : a < min (m.rows - 1) m.cols := List.mem_range.mp ha
  rcases qrStep_cases sqrt m.rows b a (by omega) with h | ⟨st2, h⟩
  · rw [h]
    intro hcon
    injection hcon with hcon
    exact ExecError.noConfusion hcon
  · rw [h]
    exact fun hcon => Except.noConfusion hcon

/-- The eigensolver loop on a square eigenvalue matrix never reports the
assertion error: the matrix handed to the inner `qr` stays square. -/
theorem eigenLoop_ne_assert (sqrt : ℚ → ℚ) (eps : ℚ) (rows cols : Nat) :
    ∀ (nf : Nat) (st : Mat × Mat × Mat), st.2.1.cols = st.2.1.rows →
      eigenLoop sqrt eps rows cols nf st ≠ .error .assertionFailed := by
  intro nf
  induction nf with
  | zero => intro st hsq h; exact Except.noConfusion h
  | succ n ih =>
    intro st hsq h
    simp only [eigenLoop] at h
    by_cases hs : stopCheck eps rows cols st.2.1 = true
    · rw [if_pos hs] at h
      exact Except.noConfusion h
    · rw [if_neg hs] at h
      cases heq : qr sqrt st.2.1 with
      | error e =>
        simp only [heq] at h
        injection h with h
        rw [h] at heq
        exact qr_ne_assert sqrt st.2.1 (le_of_eq hsq) heq
      | ok p =>
        obtain ⟨q, r⟩ := p
        simp only [heq] at h
        have hshape := qr_ok_shape sqrt st.2.1 q r heq
        refine ih _ ?_ h
        show q.cols = r.rows
        rw [hshape.2.1, hshape.2.2.1]

/-- C7. Each entry point fails with its fatal assertion exactly when its
shape precondition is violated: `householder_matrix` requires
`dim >= start + subdim`, `qr` requires `rows >= cols`, and `eigen_qr`
requires squareness; under the precondition the assertion-failure branch
is unreachable (the only abnormal outcome left is the out-of-bounds
unchecked read, a distinct error of the embedding). -/
theorem assertion_contract :
    (∀ (dim start : Nat) (vec : List ℚ),
        householder_matrix dim start vec = .error .assertionFailed
          ↔ dim < start + vec.length)
    ∧ (∀ (sqrt : ℚ → ℚ) (m : Mat),
        qr sqrt m = .error .assertionFailed ↔ m.rows < m.cols)
    ∧ (∀ (sqrt : ℚ → ℚ) (m : Mat) (eps : ℚ) (niter : Nat),
        eigen_qr sqrt m eps niter = .error .assertionFailed ↔ m.rows ≠ m.cols) := by
  refine ⟨?_, ?_, ?_⟩
  · intro dim start vec
    unfold householder_matrix
    by_cases hc : vec.length + start ≤ dim
    · rw [if_pos hc]
      constructor
      · intro h
        exact Except.noConfusion h
      · intro h
        omega
    · rw [if_neg hc]
      constructor
      · intro _
        omega
      · intro _
        rfl
  · intro sqrt m
    constructor
    · intro h
      by_contra hc
      exact qr_ne_assert sqrt m (by omega) h
    · intro h
      unfold qr
      rw [if_neg (by omega)]
  · intro sqrt m eps niter
    constructor
    · intro h
      intro hc
      unfold eigen_qr at h
      rw [if_pos hc] at h
      cases heq : eigenLoop sqrt eps m.rows m.cols niter (eye m.rows, m, eye m.rows) with
      | error e =>
        simp only [heq] at h
        injection h with h
        rw [h] at heq
        exact eigenLoop_ne_assert sqrt eps m.rows m.cols niter _ hc.symm heq
      | ok t =>
        simp only [heq] at h
        exact Except.noConfusion h
    · intro h
      unfold eigen_qr
      rw [if_neg h]

/-- An unchecked matrix write is read back exactly at its cell. -/
theorem uset_entry (m : Mat) (i j a b : Nat) (x : ℚ) :
    (m.uset i j x).entry a b = if a = i ∧ b = j then x else m.entry a b := rfl

/-- Entries after the inner reflector loop over a duplicate-free row list:
each visited row of column `j2` loses twice the outer-product term, every
other cell is untouched (each cell is written at most once, so the value
read is the pre-loop one). -/
theorem hhCol_entry (vec : List ℚ) (start j2 : Nat) :
    ∀ (l : List Nat), l.Nodup → ∀ (m : Mat) (a b : Nat),
      (l.foldl (hhStep vec start j2) m).entry a b
        = if b = j2 ∧ a ∈ l
          then m.entry a b - 2 * (vec.getD (a - start) 0 * vec.getD (j2 - start) 0)
          else m.entry a b := by
  intro l
  induction l with
  | nil => intro _ m a b; simp
  | cons i0 l ih =>
    intro hnd m a b
    have hni : i0 ∉ l := (List.nodup_cons.mp hnd).1
    rw [List.foldl_cons, ih (List.nodup_cons.mp hnd).2]
    simp only [hhStep]
    by_cases hb : b = j2
    · by_cases hal : a ∈ l
      · have hne : ¬(a = i0 ∧ b = j2) := fun hc => hni (hc.1 ▸ hal)
        rw [if_pos ⟨hb, hal⟩, if_pos ⟨hb, List.mem_cons_of_mem i0 hal⟩, uset_entry, if_neg hne]
      · by_cases hai : a = i0
        · rw [if_neg (fun hc => hal hc.2), if_pos ⟨hb, List.mem_cons.mpr (Or.inl hai)⟩,
            uset_entry, if_pos ⟨hai, hb⟩]
          subst hai
          subst hb
          ring
        · rw [if_neg (fun hc => hal hc.2),
            if_neg (fun hc => (List.mem_cons.mp hc.2).elim hai hal),
            uset_entry, if_neg (fun hc => hai hc.1)]
    · rw [if_neg (fun hc => hb hc.1), if_neg (fun hc => hb hc.1),
        uset_entry, if_neg (fun hc => hb hc.2)]

/-- Entries after the outer reflector loop over a duplicate-free column
list: each visited column is the inner loop's result on the pre-loop
matrix (columns are disjoint, so earlier columns do not feed later
ones). -/
theorem householder_fold_entry (vec : List ℚ) (start : Nat) :
    ∀ (lj : List Nat), lj.Nodup → ∀ (m : Mat) (a b : Nat),
      (lj.foldl (hhCol vec start) m).entry a b
        = if b ∈ lj ∧ a ∈ List.range' start vec.length
          then m.entry a b - 2 * (vec.getD (a - start) 0 * vec.getD (b - start) 0)
          else m.entry a b := by
  intro lj
  induction lj with
  | nil => intro _ m a b; simp
  | cons j0 lj ih =>
    intro hnd m a b
    have hnj : j0 ∉ lj := (List.nodup_cons.mp hnd).1
    rw [List.foldl_cons, ih (List.nodup_cons.mp hnd).2]
    have hcol : ∀ (a2 b2 : Nat), (hhCol vec start m j0).entry a2 b2
        = if b2 = j0 ∧ a2 ∈ List.range' start vec.length
          then m.entry a2 b2 - 2 * (vec.getD (a2 - start) 0 * vec.getD (j0 - start) 0)
          else m.entry a2 b2 := fun a2 b2 =>
      hhCol_entry vec start j0 (List.range' start vec.length)
        (List.nodup_range' start vec.length) m a2 b2
    by_cases har : a ∈ List.range' start vec.length
    · by_cases hbj : b = j0
      · rw [if_neg (fun hc => hnj (hbj ▸ hc.1)), hcol, if_pos ⟨hbj, har⟩,
          if_pos ⟨List.mem_cons.mpr (Or.inl hbj), har⟩, hbj]
      · by_cases hbl : b ∈ lj
        · rw [if_pos ⟨hbl, har⟩, hcol, if_neg (fun hc => hbj hc.1),
            if_pos ⟨List.mem_cons.mpr (Or.inr hbl), har⟩]
        · rw [if_neg (fun hc => hbl hc.1), hcol, if_neg (fun hc => hbj hc.1),
            if_neg (fun hc => (List.mem_cons.mp hc.1).elim hbj hbl)]
    · rw [if_neg (fun hc => har hc.2), hcol, if_neg (fun hc => har hc.2),
        if_neg (fun hc => har hc.2)]

/-- C6. Under the precondition `dim >= start + subdim`, the reflector
builder returns a matrix that equals the identity outside the index square
`[start, start + subdim)` in both coordinates and, inside it, the identity
minus `2 * v[i - start] * v[j - start]`; it is a pure function of its
arguments (the embedding is effect-free by construction). -/
theorem householder_matrix_entries (dim start : Nat) (vec : List ℚ)
    (h : start + vec.length ≤ dim) :
    ∃ H, householder_matrix dim start vec = .ok H ∧
      ∀ i j, i < dim → j < dim →
        H.entry i j =
          if start ≤ i ∧ i < start + vec.length ∧ start ≤ j ∧ j < start + vec.length
          then (eye dim).entry i j - 2 * (vec.getD (i - start) 0 * vec.getD (j - start) 0)
          else (eye dim).entry i j := by
  refine ⟨_, by rw [householder_matrix, if_pos (by omega)], ?_⟩
  intro i j hi hj
  rw [householder_fold_entry vec start _ (List.nodup_range' start vec.length) (eye dim) i j]
  by_cases hc : start ≤ i ∧ i < start + vec.length ∧ start ≤ j ∧ j < start + vec.length
  · rw [if_pos ⟨List.mem_range'_1.mpr ⟨hc.2.2.1, hc.2.2.2⟩,
      List.mem_range'_1.mpr ⟨hc.1, hc.2.1⟩⟩, if_pos hc]
  · rw [if_neg (fun hcon => hc ⟨(List.mem_range'_1.mp hcon.2).1, (List.mem_range'_1.mp hcon.2).2,
      (List.mem_range'_1.mp hcon.1).1, (List.mem_range'_1.mp hcon.1).2⟩), if_neg hc]

/-- Witness for C6 at `dim = 3`, `start = 1`, `vec = [3/5, 4/5]`. -/
theorem householder_matrix_entries_witness :
    1 + ([3/5, 4/5] : List ℚ).length ≤ 3
    ∧ ∃ H, householder_matrix 3 1 [3/5, 4/5] = .ok H ∧
        ∀ i j, i < 3 → j < 3 →
          H.entry i j =
            if 1 ≤ i ∧ i < 1 + ([3/5, 4/5] : List ℚ).length
                ∧ 1 ≤ j ∧ j < 1 + ([3/5, 4/5] : List ℚ).length
            then (eye 3).entry i j
              - 2 * (([3/5, 4/5] : List ℚ).getD (i - 1) 0 * ([3/5, 4/5] : List ℚ).getD (j - 1) 0)
            else (eye 3).entry i j :=
  ⟨by decide, householder_matrix_entries 3 1 [3/5, 4/5] (by decide)⟩
